import Mathlib

/-!
Verification of the bell-schedule resolver.

Shallow embedding of the repository:
  - `src/src/data.rs`  : data model, `schedule_name_for_date`, `current_section`,
    `is_special_day_match`;
  - `src/src/main.rs`  : the forward search `next_period_from`;
  - `src/build.rs`     : `verify_schedules` and the schedules-file parser
    `read_schedules` with its helpers.

Modelling conventions:
  - A calendar `Date` of the `time` crate is a day index (`Nat`): `0` is the
    minimum representable date `-9999-01-01` and `dateMaxIdx = 7304483` is
    the maximum `9999-12-31` (proleptic Gregorian: the 19999 years from
    -9999 through 9999 contain 4849 leap years, hence
    19999 * 365 + 4849 = 7304484 days).  `Date::next_day` returns `None`
    exactly at the maximum date.  `-9999-01-01` is a Monday (`0001-01-01`
    is a Monday and its day index 3652425 is divisible by 7), so the weekday
    of day index `d` is determined by `d % 7` with `0` mapped to Monday.
  - A `Time` (time-of-day) is its count of nanoseconds since midnight
    (`Nat`), an order isomorphism with the ordering of the crate on (h, m, s, ns);
    periods parsed by `build.rs` always have second and nanosecond zero.
  - `HashMap<String, Schedule>` is an association list `List (String × Schedule)`
    looked up with `List.lookup`; the parser rejects duplicate keys, and
    insertion order is file order.
  - Rust functions that panic are modelled as `Option`-returning functions
    (`none` = the panic / absent result).
  - Instants: `main.rs` attaches the same UTC offset to `now` and to the
    search target before subtracting, so the offsets cancel and the
    difference is the difference of (date, time-of-day) pairs measured in
    nanoseconds (`instant`).
-/

namespace Bell

/-- Nanoseconds in one day (86400 seconds). -/
def nsPerDay : Nat := 86400000000000

/-- Day index of the maximum representable `time::Date`, `9999-12-31`. -/
def dateMaxIdx : Nat := 7304483

/-- Model of `time::Date::next_day`: `None` exactly at the maximum date. -/
def nextDay (date : Nat) : Option Nat :=
  if date < dateMaxIdx then some (date + 1) else none

/-- The seven weekdays (`time::Weekday`). -/
inductive Weekday where
  | monday
  | tuesday
  | wednesday
  | thursday
  | friday
  | saturday
  | sunday
  deriving DecidableEq

/-- Model of `time::Date::weekday` on day indices: day 0 (`-9999-01-01`)
is a Monday and weekdays repeat with period 7. -/
def weekday (date : Nat) : Weekday :=
  match date % 7 with
  | 0 => .monday
  | 1 => .tuesday
  | 2 => .wednesday
  | 3 => .thursday
  | 4 => .friday
  | 5 => .saturday
  | _ => .sunday

/-- Model of `data.rs` `Week`: one optional schedule name per weekday. -/
structure Week where
  mon : Option String
  tue : Option String
  wed : Option String
  thu : Option String
  fri : Option String
  sat : Option String
  sun : Option String
  deriving DecidableEq

/-- Model of `data.rs` `SpecialDay`: a single date (`untilDate = none`) or an
inclusive date range `[onDate, untilDate]` mapped to a schedule name.
The source fields are named `on` and `until`; both are reserved words in
Lean, hence `onDate` and `untilDate` here. -/
structure SpecialDay where
  onDate : Nat
  untilDate : Option Nat
  schedule : String
  comment : Option String
  deriving DecidableEq

/-- Model of `data.rs` `Period`: a bell period starting at `start` (ns of day). -/
structure Period where
  msg : String
  start : Nat
  deriving DecidableEq

/-- Model of `data.rs` `Schedule`. -/
structure Schedule where
  comment : Option String
  periods : List Period
  deriving DecidableEq

/-- Model of `data.rs` `Meta`. -/
structure Meta where
  name : String
  periods : List String
  deriving DecidableEq

/-- Model of `data.rs` `Calendar`. -/
structure Calendar where
  default : Week
  special : List SpecialDay
  deriving DecidableEq

/-- Model of `data.rs` `AppData`; the `ScheduleStore` hash map is an association
list keyed by schedule name (keys unique by construction). -/
structure AppData where
  meta : Meta
  calendar : Calendar
  schedules : List (String × Schedule)
  deriving DecidableEq

/-- Model of `data.rs` `CurrentSection`. -/
structure CurrentSection where
  schedule_name : String
  schedule_comment : Option String
  current_period : Period
  next_period : Option Period
  current_period_end : Option Nat
  meta_name : String
  meta_periods : List String
  deriving DecidableEq

/-- Model of `data.rs` `is_special_day_match`: with a range, inclusive containment
at both ends; with a single date, exact equality. -/
def is_special_day_match (date : Nat) (special : SpecialDay) : Bool :=
  match special.untilDate with
  | some u => decide (special.onDate ≤ date) && decide (date ≤ u)
  | none => decide (date = special.onDate)

/-- The `for special in &self.calendar.special` loop of
`schedule_name_for_date`: first matching entry wins. -/
def findSpecial (date : Nat) : List SpecialDay → Option String
  | [] => none
  | s :: rest =>
    if is_special_day_match date s then some s.schedule else findSpecial date rest

/-- The weekday `match` at the end of `schedule_name_for_date`. -/
def weekField (w : Week) (wd : Weekday) : Option String :=
  match wd with
  | .monday => w.mon
  | .tuesday => w.tue
  | .wednesday => w.wed
  | .thursday => w.thu
  | .friday => w.fri
  | .saturday => w.sat
  | .sunday => w.sun

/-- Model of `data.rs` `AppData::schedule_name_for_date`. -/
def schedule_name_for_date (d : AppData) (date : Nat) : Option String :=
  match findSpecial date d.calendar.special with
  | some name => some name
  | none => weekField d.calendar.default (weekday date)

/-- The index-tracking loop of `current_section`: walks the periods in
order, remembers the index of the last period with `start ≤ time`, and
stops at the first period with `start > time`. -/
def scanCurrentIndex (time : Nat) : List Period → Nat → Option Nat → Option Nat
  | [], _, acc => acc
  | p :: rest, idx, acc =>
    if p.start ≤ time then scanCurrentIndex time rest (idx + 1) (some idx)
    else acc

/-- Model of `data.rs` `AppData::current_section`. -/
def current_section (d : AppData) (date : Nat) (time : Nat) : Option CurrentSection :=
  match schedule_name_for_date d date with
  | none => none
  | some schedule_name =>
    match List.lookup schedule_name d.schedules with
    | none => none
    | some schedule =>
      match scanCurrentIndex time schedule.periods 0 none with
      | none => none
      | some current_index =>
        match schedule.periods[current_index]? with
        | none => none
        | some current_period =>
          let next_period := schedule.periods[current_index + 1]?
          some {
            schedule_name := schedule_name
            schedule_comment := schedule.comment
            current_period := current_period
            next_period := next_period
            current_period_end := next_period.map Period.start
            meta_name := d.meta.name
            meta_periods := d.meta.periods }

/-- Nanosecond timestamp of the instant with day index `date` and
time-of-day `time`.  `next_period_from` attaches the same UTC offset to
both instants before subtracting (`assume_offset(offset)`), so the offset
cancels in the difference and is omitted here. -/
def instant (date : Nat) (time : Nat) : Int :=
  (date : Int) * (nsPerDay : Int) + (time : Int)

/-- Model of `main.rs` `next_period_from`: starting at `date`, walk forward one day
at a time.  A day with no schedule name or an empty period list is
skipped; a missing store entry aborts the whole search (the `?` on the
hash-map `get`); the original `today` is skipped when its first period has
already started.  `Date::next_day` failing at the maximum date also aborts
the search (the `?` on `next_day`). -/
def next_period_from (d : AppData) (todayDate : Nat) (nowTime : Nat)
    (date : Nat) : Option (Period × Int) :=
  match schedule_name_for_date d date with
  | none =>
    match h : nextDay date with
    | none => none
    | some d2 => next_period_from d todayDate nowTime d2
  | some name =>
    match List.lookup name d.schedules with
    | none => none
    | some sched =>
      match sched.periods.head? with
      | none =>
        match h : nextDay date with
        | none => none
        | some d2 => next_period_from d todayDate nowTime d2
      | some first =>
        if date = todayDate ∧ first.start ≤ nowTime then
          match h : nextDay date with
          | none => none
          | some d2 => next_period_from d todayDate nowTime d2
        else
          some (first, instant date first.start - instant todayDate nowTime)
termination_by dateMaxIdx + 1 - date
decreasing_by
  all_goals
    simp only [nextDay] at h
    split at h
    · cases h; omega
    · cases h

/-- The first period of the schedule resolved for `date`, when the date resolves
to a name that is present in the store. -/
def dayFirstPeriod (d : AppData) (date : Nat) : Option Period :=
  match schedule_name_for_date d date with
  | none => none
  | some name =>
    match List.lookup name d.schedules with
    | none => none
    | some sched => sched.periods.head?

/-- A day the forward search skips (advancing to the next day): no
schedule name, an empty period list, or the original `today` whose first
period has already started. -/
def skipDay (d : AppData) (todayDate : Nat) (nowTime : Nat) (date : Nat) : Prop :=
  match schedule_name_for_date d date with
  | none => True
  | some name =>
    match List.lookup name d.schedules with
    | none => False
    | some sched =>
      match sched.periods.head? with
      | none => True
      | some first => date = todayDate ∧ first.start ≤ nowTime

/-- A day at which the forward search stops, returning the first period
of that day. -/
def hitDay (d : AppData) (todayDate : Nat) (nowTime : Nat) (date : Nat) : Prop :=
  match schedule_name_for_date d date with
  | none => False
  | some name =>
    match List.lookup name d.schedules with
    | none => False
    | some sched =>
      match sched.periods.head? with
      | none => False
      | some first => ¬(date = todayDate ∧ first.start ≤ nowTime)

/-- The set of schedule names referenced by the calendar in
`build.rs` `verify_schedules`: the seven default-week slots plus every
special-day entry (collected as a list; only membership matters). -/
def referencedNames (cal : Calendar) : List String :=
  [cal.default.sun, cal.default.mon, cal.default.tue, cal.default.wed,
    cal.default.thu, cal.default.fri, cal.default.sat].filterMap id
  ++ cal.special.map SpecialDay.schedule

/-- Model of `build.rs` `verify_schedules`: `true` when the check passes, `false`
when it panics, i.e. when some schedule name defined in the store is not
referenced anywhere in the calendar. -/
def verify_schedules (store : List (String × Schedule)) (cal : Calendar) : Bool :=
  (store.map Prod.fst).all fun n => (referencedNames cal).contains n

/-- Rust `char::is_whitespace` (the Unicode `White_Space` property),
enumerated by code point. -/
def isRustWhitespace (c : Char) : Bool :=
  let n := c.toNat
  n == 0x20 || (0x9 ≤ n && n ≤ 0xD) || n == 0x85 || n == 0xA0 ||
  n == 0x1680 || (0x2000 ≤ n && n ≤ 0x200A) || n == 0x2028 || n == 0x2029 ||
  n == 0x202F || n == 0x205F || n == 0x3000

/-- Rust `str::trim` on a line of characters. -/
def trimChars (s : List Char) : List Char :=
  ((s.dropWhile isRustWhitespace).reverse.dropWhile isRustWhitespace).reverse

/-- The first token of Rust `str::split_whitespace`, or `[]` when the
string holds no non-whitespace character (`parts.next().unwrap_or("")`). -/
def firstTok (s : List Char) : List Char :=
  (s.dropWhile isRustWhitespace).takeWhile fun c => !isRustWhitespace c

/-- Rust `str::split_once(sep)`: the parts before and after the first
occurrence of `sep`, or `none` when `sep` does not occur. -/
def splitOnceChar (sep : Char) (s : List Char) : Option (List Char × List Char) :=
  if s.contains sep then
    some (s.takeWhile (fun x => x != sep), (s.dropWhile (fun x => x != sep)).drop 1)
  else none

/-- Header processing in `read_schedules`: from the characters after the
leading `'*'`, trim, split off an optional `#` comment, and take the first
whitespace-delimited token as the schedule name. -/
def headerParts (rest : List Char) : List Char × Option (List Char) :=
  let header := trimChars rest
  match splitOnceChar '#' header with
  | some (l, r) => (firstTok (trimChars l), some (trimChars r))
  | none => (firstTok header, none)

/-- Model of `build.rs` `split_start_message`: split a period line at its first
whitespace character; `none` when there is none or when either side trims
to empty (the panics). -/
def split_start_message (line : List Char) : Option (List Char × List Char) :=
  if line.any isRustWhitespace then
    let start := trimChars (line.takeWhile fun c => !isRustWhitespace c)
    let msg := trimChars (line.dropWhile fun c => !isRustWhitespace c)
    if start.isEmpty || msg.isEmpty then none else some (start, msg)
  else none

/-- Rust `str::parse::<u8>`: an optional leading `'+'`, then one or more
ASCII digits, with the value required to fit in `u8`. -/
def parseU8 (s : List Char) : Option Nat :=
  let digits := match s with
    | '+' :: rest => rest
    | _ => s
  if !digits.isEmpty && digits.all Char.isDigit then
    let v := digits.foldl (fun acc c => acc * 10 + (c.toNat - 48)) 0
    if v ≤ 255 then some v else none
  else none

/-- Model of `build.rs` `parse_start_time`: split on `':'`, parse both sides as
`u8` after trimming, and require a valid time of day
(`Time::from_hms(hour, minute, 0)`); the result is nanoseconds since
midnight. -/
def parse_start_time (raw : List Char) : Option Nat :=
  match splitOnceChar ':' raw with
  | none => none
  | some (hs, ms) =>
    match parseU8 (trimChars hs), parseU8 (trimChars ms) with
    | some hour, some minute =>
      if hour ≤ 23 ∧ minute ≤ 59 then
        some ((hour * 3600 + minute * 60) * 1000000000)
      else none
    | _, _ => none

/-- One period line of `read_schedules`: `split_start_message` followed by
`parse_start_time`; the source panics exactly where this is `none`. -/
def parseEntry (line : List Char) : Option Period :=
  match split_start_message line with
  | none => none
  | some (start, msg) =>
    match parse_start_time start with
    | none => none
    | some t => some { msg := String.mk msg, start := t }

/-- The `schedules.insert` step of `read_schedules` flushing the schedule
under construction: `none` on a duplicate name (the panic). -/
def flushInsert (acc : List (String × Schedule)) (name : List Char)
    (comment : Option (List Char)) (periods : List Period) :
    Option (List (String × Schedule)) :=
  if (List.lookup (String.mk name) acc).isSome then none
  else some (acc ++ [(String.mk name,
    { comment := comment.map String.mk, periods := periods })])

/-- Does a trimmed line open a schedule header (`strip_prefix('*')`
succeeds)? -/
def isHeaderLine (l : List Char) : Bool :=
  l.head? == some '*'

/-- The schedule name declared by a header line (the characters after the
leading `'*'`, processed by `headerParts`). -/
def headerName (l : List Char) : List Char :=
  (headerParts (l.drop 1)).1

/-- The line loop of `read_schedules`.  State: the schedules inserted so
far (in insertion order) and the optional schedule under construction
(name, filtered comment, periods so far).  Lines are already trimmed;
empty lines are skipped; a line whose first character is `'*'`
(`strip_prefix('*')`) flushes the current schedule and opens a new one;
any other line is a period entry of the current schedule.  All panics of
the source are `none`. -/
def readLoop : List (List Char) → List (String × Schedule) →
    Option (List Char × Option (List Char) × List Period) →
    Option (List (String × Schedule))
  | [], acc, none => some acc
  | [], acc, some (n, c, ps) => flushInsert acc n c ps
  | line :: rest, acc, cur =>
    if line.isEmpty then readLoop rest acc cur
    else if isHeaderLine line then
      let step := match cur with
        | none => some acc
        | some (n, c, ps) => flushInsert acc n c ps
      match step with
      | none => none
      | some acc2 =>
        let prts := headerParts (line.drop 1)
        if prts.1.isEmpty then none
        else readLoop rest acc2
          (some (prts.1, prts.2.filter (fun v => !v.isEmpty), []))
    else
      match cur with
      | none => none
      | some (n, c, ps) =>
        match parseEntry line with
        | none => none
        | some p => readLoop rest acc (some (n, c, ps ++ [p]))

/-- Model of `build.rs` `read_schedules` on the lines of the input text (the
output of `str::lines`): trim every line, then run the line loop; the
resulting association list is the `ScheduleStore` hash map. -/
def read_schedules (rawLines : List (List Char)) :
    Option (List (String × Schedule)) :=
  readLoop (rawLines.map trimChars) [] none

/-- The significant lines of the schedules text: every line trimmed,
blank lines dropped. -/
def sigOf (rawLines : List (List Char)) : List (List Char) :=
  (rawLines.map trimChars).filter fun l => !l.isEmpty

/-- The names declared by the header lines of the significant lines, in
file order. -/
def headerNames (sig : List (List Char)) : List String :=
  (sig.filter isHeaderLine).map fun l => String.mk (headerName l)

/-- Modelled from the spec (section 4.2): the significant lines are
well-formed iff no period line appears before the first header, every
header carries a nonempty schedule name, no two headers declare the same
name, and every period line parses (whitespace split with nonempty start
and message, parsable hour and minute, valid time of day). -/
def schedulesWellFormed (sig : List (List Char)) : Bool :=
  (sig.takeWhile fun l => !isHeaderLine l).isEmpty &&
  (sig.all fun l => !isHeaderLine l || !(headerName l).isEmpty) &&
  decide (headerNames sig).Nodup &&
  (sig.all fun l => isHeaderLine l || (parseEntry l).isSome)

/-- Modelled from the spec (section 4.2): the declarative block structure
of a well-formed schedules text.  Each header opens a block whose
periods are the period lines up to the next header, parsed in file
order. -/
def specBlocks : List (List Char) → List (String × Schedule)
  | [] => []
  | line :: rest =>
    if isHeaderLine line then
      let prts := headerParts (line.drop 1)
      (String.mk prts.1,
        { comment := (prts.2.filter (fun v => !v.isEmpty)).map String.mk,
          periods := (rest.takeWhile fun l => !isHeaderLine l).filterMap
            parseEntry }) ::
        specBlocks (rest.dropWhile fun l => !isHeaderLine l)
    else specBlocks rest
termination_by l => l.length
decreasing_by
  · simp only [List.length_cons]
    have := (List.dropWhile_sublist (l := rest)
      fun l => !isHeaderLine l).length_le
    omega
  · simp

/-- The per-state contribution of the schedule under construction to the
set of inserted names. -/
def curNames : Option (List Char × Option (List Char) × List Period) →
    List String
  | none => []
  | some (n, _, _) => [String.mk n]

/-- Loop invariant of `readLoop`: the remaining significant lines, the
schedule under construction and the schedules inserted so far let the rest
of the parse succeed — no entry line while no schedule is open, every
upcoming header named, every upcoming entry parsable, and all names still
to be inserted distinct and absent from the accumulator. -/
def contOK (sig : List (List Char))
    (cur : Option (List Char × Option (List Char) × List Period))
    (acc : List (String × Schedule)) : Prop :=
  (cur = none → sig.takeWhile (fun l => !isHeaderLine l) = []) ∧
  (∀ l ∈ sig, isHeaderLine l = true → (headerName l).isEmpty = false) ∧
  (∀ l ∈ sig, isHeaderLine l = false → (parseEntry l).isSome = true) ∧
  (curNames cur ++ headerNames sig).Nodup ∧
  (∀ n ∈ curNames cur ++ headerNames sig, List.lookup n acc = none)

instance (sig : List (List Char))
    (cur : Option (List Char × Option (List Char) × List Period))
    (acc : List (String × Schedule)) : Decidable (contOK sig cur acc) := by
  unfold contOK
  infer_instance

/-- The store produced by the rest of a successful parse: the schedule
under construction absorbs the entry lines up to the next header and is
flushed, then the remaining blocks follow. -/
def finalizeLoop (acc : List (String × Schedule))
    (cur : Option (List Char × Option (List Char) × List Period))
    (sig : List (List Char)) : List (String × Schedule) :=
  match cur with
  | none => acc ++ specBlocks sig
  | some (n, c, ps) =>
    acc ++ [(String.mk n,
      { comment := c.map String.mk,
        periods := ps ++ (sig.takeWhile fun l => !isHeaderLine l).filterMap
          parseEntry })]
      ++ specBlocks (sig.dropWhile fun l => !isHeaderLine l)

/-- Modelled from the spec (section 4.2): `read_schedules` succeeds iff
the significant lines are well-formed, and then produces exactly the
declarative blocks. -/
def scheduleParseSpec (rawLines : List (List Char)) :
    Option (List (String × Schedule)) :=
  let sig := sigOf rawLines
  if schedulesWellFormed sig then some (specBlocks sig) else none

/-! ### Concrete data used by example theorems and witnesses -/

/-- A week with no schedule on any day. -/
def emptyWeek : Week :=
  ⟨none, none, none, none, none, none, none⟩

/-- The example schedule `"A"` of the spec:
periods 08:00 `"Homeroom"`, 08:30 `"Period1"`, 15:00 `"Dismissal"`
(starts in nanoseconds of day). -/
def exSchedA : Schedule :=
  { comment := none,
    periods := [⟨"Homeroom", 28800000000000⟩, ⟨"Period1", 30600000000000⟩,
      ⟨"Dismissal", 54000000000000⟩] }

/-- App data whose default week maps Monday (day index 0 is a Monday) to
schedule `"A"`. -/
def exAppA : AppData :=
  { meta := ⟨"meta", []⟩,
    calendar := { default := { emptyWeek with mon := some "A" }, special := [] },
    schedules := [("A", exSchedA)] }

/-- App data with an entirely empty calendar: no special days and no
default schedule on any weekday, so no date ever resolves. -/
def emptyApp : AppData :=
  { meta := ⟨"meta", []⟩,
    calendar := { default := emptyWeek, special := [] },
    schedules := [] }

/-- App data whose every weekday resolves to the name `"ghost"`, which is
absent from the (empty) schedule store: a dangling reference on every
date. -/
def danglingApp : AppData :=
  { meta := ⟨"meta", []⟩,
    calendar :=
      { default := ⟨some "ghost", some "ghost", some "ghost", some "ghost",
          some "ghost", some "ghost", some "ghost"⟩,
        special := [] },
    schedules := [] }

/-- A special day whose range is reversed: `untilDate` strictly before
`onDate`. -/
def revSpecial : SpecialDay :=
  ⟨20, some 10, "rev", none⟩

/-- App data holding the reversed-range entry first, then a normal single
date entry, over the `"A"`-on-Monday default week. -/
def revApp : AppData :=
  { meta := ⟨"meta", []⟩,
    calendar :=
      { default := { emptyWeek with mon := some "A" },
        special := [revSpecial, ⟨15, none, "single", none⟩] },
    schedules := [("A", exSchedA)] }

/-! ### Helper lemmas about the special-day scan -/

theorem findSpecial_eq_some_iff (date : Nat) (l : List SpecialDay) (name : String) :
    findSpecial date l = some name ↔
      ∃ pre s post, l = pre ++ s :: post ∧
        (∀ t ∈ pre, is_special_day_match date t = false) ∧
        is_special_day_match date s = true ∧ name = s.schedule := by
  induction l with
  | nil => simp [findSpecial]
  | cons a rest ih =>
    by_cases ha : is_special_day_match date a
    · simp only [findSpecial, ha, if_true, Option.some.injEq]
      constructor
      · intro h
        exact ⟨[], a, rest, rfl, by simp, ha, h.symm⟩
      · rintro ⟨pre, s, post, heq, hpre, hs, hname⟩
        cases pre with
        | nil =>
          simp only [List.nil_append, List.cons.injEq] at heq
          rw [hname, ← heq.1]
        | cons p pre2 =>
          simp only [List.cons_append, List.cons.injEq] at heq
          have := hpre p (by simp)
          rw [← heq.1] at this
          rw [ha] at this
          cases this
    · simp only [findSpecial, ha, if_false, Bool.false_eq_true, ih]
      constructor
      · rintro ⟨pre, s, post, heq, hpre, hs, hname⟩
        refine ⟨a :: pre, s, post, by rw [heq, List.cons_append], ?_, hs, hname⟩
        intro t ht
        rcases List.mem_cons.mp ht with h | h
        · rw [h]; exact Bool.eq_false_iff.mpr ha
        · exact hpre t h
      · rintro ⟨pre, s, post, heq, hpre, hs, hname⟩
        cases pre with
        | nil =>
          simp only [List.nil_append, List.cons.injEq] at heq
          rw [heq.1] at ha
          exact absurd hs ha
        | cons p pre2 =>
          simp only [List.cons_append, List.cons.injEq] at heq
          refine ⟨pre2, s, post, heq.2, ?_, hs, hname⟩
          intro t ht
          exact hpre t (by simp [ht])

theorem findSpecial_eq_none_iff (date : Nat) (l : List SpecialDay) :
    findSpecial date l = none ↔ ∀ t ∈ l, is_special_day_match date t = false := by
  induction l with
  | nil => simp [findSpecial]
  | cons a rest ih =>
    by_cases ha : is_special_day_match date a
    · simp only [findSpecial, ha, if_true]
      constructor
      · intro h; cases h
      · intro h
        have := h a (by simp)
        rw [ha] at this
        cases this
    · simp only [findSpecial, ha, if_false, ih, Bool.false_eq_true]
      constructor
      · intro h t ht
        rcases List.mem_cons.mp ht with h1 | h1
        · rw [h1]; exact Bool.eq_false_iff.mpr ha
        · exact h t h1
      · intro h t ht
        exact h t (by simp [ht])

/-! ### C1 -/

/-- C1: for every calendar and every date, `schedule_name_for_date`
returns the schedule of the first `SpecialDay` in stored order whose range
contains the date (single-date entry: exact equality; range entry:
inclusive at both ends), and when no special entry matches it returns the
field of the default week for the weekday of the date (may be absent); for two
overlapping special entries the earlier one in source order wins (the
entries before the returned one all fail to match). -/
theorem schedule_name_first_match_spec (d : AppData) (date : Nat) :
    (∀ name, schedule_name_for_date d date = some name ↔
       (∃ pre s post, d.calendar.special = pre ++ s :: post ∧
          (∀ t ∈ pre, is_special_day_match date t = false) ∧
          is_special_day_match date s = true ∧ name = s.schedule) ∨
       ((∀ t ∈ d.calendar.special, is_special_day_match date t = false) ∧
          weekField d.calendar.default (weekday date) = some name)) ∧
    ((∀ t ∈ d.calendar.special, is_special_day_match date t = false) →
       schedule_name_for_date d date =
         weekField d.calendar.default (weekday date)) ∧
    (∀ s : SpecialDay,
       (s.untilDate = none →
          (is_special_day_match date s = true ↔ date = s.onDate)) ∧
       (∀ u, s.untilDate = some u →
          (is_special_day_match date s = true ↔ s.onDate ≤ date ∧ date ≤ u))) := by
  refine ⟨?_, ?_, ?_⟩
  · intro name
    unfold schedule_name_for_date
    cases hf : findSpecial date d.calendar.special with
    | some n0 =>
      simp only [Option.some.injEq]
      constructor
      · intro h
        subst h
        exact Or.inl ((findSpecial_eq_some_iff date _ n0).mp hf)
      · rintro (hdec | ⟨hall, _⟩)
        · have := (findSpecial_eq_some_iff date _ name).mpr hdec
          rw [hf] at this
          exact (Option.some.injEq _ _).mp this
        · rw [(findSpecial_eq_none_iff date _).mpr hall] at hf
          cases hf
    | none =>
      constructor
      · intro h
        exact Or.inr ⟨(findSpecial_eq_none_iff date _).mp hf, h⟩
      · rintro (⟨pre, s, post, heq, hpre, hs, hname⟩ | ⟨_, hw⟩)
        · have := (findSpecial_eq_some_iff date d.calendar.special name).mpr
            ⟨pre, s, post, heq, hpre, hs, hname⟩
          rw [hf] at this
          cases this
        · exact hw
  · intro hall
    unfold schedule_name_for_date
    rw [(findSpecial_eq_none_iff date _).mpr hall]
  · intro s
    constructor
    · intro hu
      simp [is_special_day_match, hu]
    · intro u hu
      simp [is_special_day_match, hu]

/-- C1, instantiated at a concrete calendar and date. -/
theorem schedule_name_first_match_spec_witness :
    (∀ name,
       schedule_name_for_date
         { meta := ⟨"m", []⟩,
           calendar :=
             { default := ⟨some "wk", none, none, none, none, none, none⟩,
               special := [⟨10, some 20, "range", none⟩, ⟨15, none, "single", none⟩] },
           schedules := [] } 15 = some name ↔
       (∃ pre s post,
          [(⟨10, some 20, "range", none⟩ : SpecialDay), ⟨15, none, "single", none⟩]
            = pre ++ s :: post ∧
          (∀ t ∈ pre, is_special_day_match 15 t = false) ∧
          is_special_day_match 15 s = true ∧ name = s.schedule) ∨
       ((∀ t ∈ [(⟨10, some 20, "range", none⟩ : SpecialDay),
            ⟨15, none, "single", none⟩], is_special_day_match 15 t = false) ∧
          weekField ⟨some "wk", none, none, none, none, none, none⟩ (weekday 15)
            = some name)) ∧
    ((∀ t ∈ [(⟨10, some 20, "range", none⟩ : SpecialDay),
        ⟨15, none, "single", none⟩], is_special_day_match 15 t = false) →
       schedule_name_for_date
         { meta := ⟨"m", []⟩,
           calendar :=
             { default := ⟨some "wk", none, none, none, none, none, none⟩,
               special := [⟨10, some 20, "range", none⟩, ⟨15, none, "single", none⟩] }
           schedules := [] } 15
         = weekField ⟨some "wk", none, none, none, none, none, none⟩ (weekday 15)) ∧
    (∀ s : SpecialDay,
       (s.untilDate = none →
          (is_special_day_match 15 s = true ↔ 15 = s.onDate)) ∧
       (∀ u, s.untilDate = some u →
          (is_special_day_match 15 s = true ↔ s.onDate ≤ 15 ∧ 15 ≤ u))) :=
  schedule_name_first_match_spec _ 15

/-! ### Helper lemmas about the period scan of current_section -/

theorem scanCurrentIndex_eq (time : Nat) (l : List Period) :
    ∀ (k : Nat) (acc : Option Nat),
      scanCurrentIndex time l k acc =
        if (l.takeWhile fun p => decide (p.start ≤ time)).length = 0 then acc
        else some (k + (l.takeWhile fun p => decide (p.start ≤ time)).length - 1) := by
  induction l with
  | nil => intro k acc; simp [scanCurrentIndex]
  | cons p rest ih =>
    intro k acc
    by_cases hp : p.start ≤ time
    · rw [show scanCurrentIndex time (p :: rest) k acc
          = scanCurrentIndex time rest (k + 1) (some k) by
            simp [scanCurrentIndex, hp]]
      rw [ih (k + 1) (some k)]
      have htw : (p :: rest).takeWhile (fun q => decide (q.start ≤ time))
          = p :: rest.takeWhile (fun q => decide (q.start ≤ time)) := by
        simp [List.takeWhile_cons, hp]
      rw [htw, List.length_cons]
      by_cases hlen : (rest.takeWhile fun p => decide (p.start ≤ time)).length = 0
      · simp [hlen]
      · rw [if_neg hlen, if_neg (Nat.succ_ne_zero _)]
        simp only [Option.some.injEq]
        omega
    · simp [scanCurrentIndex, hp, List.takeWhile_cons]

theorem takeWhile_length_eq_of {α : Type} (p : α → Bool) (l : List α) :
    ∀ (n : Nat) (hn : n ≤ l.length),
      (∀ j (hj : j < n), p (l.get ⟨j, Nat.lt_of_lt_of_le hj hn⟩) = true) →
      (∀ (h : n < l.length), p (l.get ⟨n, h⟩) = false) →
      (l.takeWhile p).length = n := by
  induction l with
  | nil =>
    intro n hn _ _
    simp only [List.length_nil, Nat.le_zero] at hn
    simp [hn]
  | cons a rest ih =>
    intro n hn h1 h2
    cases n with
    | zero =>
      have := h2 (by simp)
      simp only [List.get] at this
      simp [List.takeWhile_cons, this]
    | succ m =>
      have ha := h1 0 (Nat.succ_pos m)
      simp only [List.get] at ha
      simp only [List.takeWhile_cons, ha, if_true, List.length_cons]
      have : (rest.takeWhile p).length = m := by
        refine ih m (by simpa using hn) ?_ ?_
        · intro j hj
          exact h1 (j + 1) (by omega)
        · intro h
          exact h2 (by simpa using h)
      omega

theorem scanCurrentIndex_eq_none_iff (time : Nat) (l : List Period) :
    scanCurrentIndex time l 0 none = none ↔
      ∀ p ∈ l.head?, time < p.start := by
  rw [scanCurrentIndex_eq time l 0 none]
  cases l with
  | nil => simp
  | cons p rest =>
    by_cases hp : p.start ≤ time
    · have hlen : ((p :: rest).takeWhile
          fun q => decide (q.start ≤ time)).length ≠ 0 := by
        simp [List.takeWhile_cons, decide_eq_true hp]
      rw [if_neg hlen]
      constructor
      · intro h; cases h
      · intro h
        exact absurd (h p (by simp)) (by omega)
    · have hlen : ((p :: rest).takeWhile
          fun q => decide (q.start ≤ time)).length = 0 := by
        simp [List.takeWhile_cons, decide_eq_false hp]
      rw [if_pos hlen]
      constructor
      · intro _ q hq
        have hqp : p = q := by simpa using hq
        rw [← hqp]
        omega
      · intro _; rfl

/-! ### C2 -/

/-- C2: on a schedule whose periods are in non-decreasing start order, for
a (date, time) resolving to that schedule, `current_section` returns as
current period the last period whose start is at or before the time (a
time exactly equal to a start selects that period), the next period is the
one immediately following, `current_period_end` is the start of the next
period, and both are absent when the current period is the last. -/
theorem current_section_sorted_spec (d : AppData) (date time : Nat)
    (name : String) (sched : Schedule)
    (hname : schedule_name_for_date d date = some name)
    (hsched : List.lookup name d.schedules = some sched)
    (hsorted : sched.periods.Pairwise fun a b => a.start ≤ b.start)
    (i : Nat) (hi : i < sched.periods.length)
    (hle : (sched.periods.get ⟨i, hi⟩).start ≤ time)
    (hlast : ∀ j : Fin sched.periods.length, i < (j : Nat) →
      time < (sched.periods.get j).start) :
    ∃ cs, current_section d date time = some cs ∧
      cs.current_period = sched.periods.get ⟨i, hi⟩ ∧
      cs.next_period = sched.periods[i + 1]? ∧
      cs.current_period_end = (sched.periods[i + 1]?).map Period.start ∧
      (i + 1 = sched.periods.length →
        cs.next_period = none ∧ cs.current_period_end = none) := by
  have htw : (sched.periods.takeWhile fun p => decide (p.start ≤ time)).length
      = i + 1 := by
    refine takeWhile_length_eq_of _ _ (i + 1) hi ?_ ?_
    · intro j hj
      rcases Nat.lt_or_ge j i with hlt | hge
      · have := (List.pairwise_iff_get.mp hsorted)
          ⟨j, Nat.lt_of_lt_of_le hj hi⟩ ⟨i, hi⟩ hlt
        exact decide_eq_true (Nat.le_trans this hle)
      · have : j = i := by omega
        subst this
        exact decide_eq_true hle
    · intro h
      refine decide_eq_false (Nat.not_le.mpr (hlast ⟨i + 1, h⟩ ?_))
      simp only [Fin.val_mk]
      omega
  have hscan : scanCurrentIndex time sched.periods 0 none = some i := by
    rw [scanCurrentIndex_eq, htw]
    simp
  have hget : sched.periods[i]? = some (sched.periods.get ⟨i, hi⟩) :=
    List.getElem?_eq_getElem hi
  have hmain : current_section d date time = some
      { schedule_name := name
        schedule_comment := sched.comment
        current_period := sched.periods.get ⟨i, hi⟩
        next_period := sched.periods[i + 1]?
        current_period_end := (sched.periods[i + 1]?).map Period.start
        meta_name := d.meta.name
        meta_periods := d.meta.periods } := by
    unfold current_section
    simp only [hname, hsched, hscan, hget]
  refine ⟨_, hmain, rfl, rfl, rfl, ?_⟩
  intro hlen
  have : sched.periods[i + 1]? = none :=
    List.getElem?_eq_none (by omega)
  simp [this]

/-- C2, instantiated: schedule `"A"` at time exactly 08:30 selects
`"Period1"` (index 1), with next period index 2 and end 15:00. -/
theorem current_section_sorted_spec_witness :
    ∃ cs, current_section exAppA 0 30600000000000 = some cs ∧
      cs.current_period = exSchedA.periods.get ⟨1, by decide⟩ ∧
      cs.next_period = exSchedA.periods[1 + 1]? ∧
      cs.current_period_end = (exSchedA.periods[1 + 1]?).map Period.start ∧
      (1 + 1 = exSchedA.periods.length →
        cs.next_period = none ∧ cs.current_period_end = none) :=
  current_section_sorted_spec exAppA 0 30600000000000 "A" exSchedA rfl rfl
    (by decide) 1 (by decide) (by decide) (by decide)

/-! ### C7 -/

/-- C7: `current_section` is absent (and nothing fails) exactly when the
date resolves to no schedule name, or the resolved name is missing from
the store (dangling reference), or the time is strictly before the start
of every period the scan examines — the scan stops at the first period
whose start is after the time, so this is the condition that the first
period (when one exists) starts strictly after the time. -/
theorem current_section_none_iff (d : AppData) (date time : Nat) :
    current_section d date time = none ↔
      schedule_name_for_date d date = none ∨
      (∃ name, schedule_name_for_date d date = some name ∧
        List.lookup name d.schedules = none) ∨
      (∃ name sched, schedule_name_for_date d date = some name ∧
        List.lookup name d.schedules = some sched ∧
        ∀ p ∈ sched.periods.head?, time < p.start) := by
  cases hname : schedule_name_for_date d date with
  | none =>
    have hL : current_section d date time = none := by
      unfold current_section
      simp only [hname]
    rw [hL]
    exact iff_of_true rfl (Or.inl rfl)
  | some name =>
    cases hsched : List.lookup name d.schedules with
    | none =>
      have hL : current_section d date time = none := by
        unfold current_section
        simp only [hname, hsched]
      rw [hL]
      exact iff_of_true rfl (Or.inr (Or.inl ⟨name, rfl, hsched⟩))
    | some sched =>
      cases hscan : scanCurrentIndex time sched.periods 0 none with
      | none =>
        have hL : current_section d date time = none := by
          unfold current_section
          simp only [hname, hsched, hscan]
        rw [hL]
        refine iff_of_true rfl (Or.inr (Or.inr ⟨name, sched, rfl, hsched, ?_⟩))
        exact (scanCurrentIndex_eq_none_iff time sched.periods).mp hscan
      | some i =>
        have hi : i < sched.periods.length := by
          have heq := scanCurrentIndex_eq time sched.periods 0 none
          rw [hscan] at heq
          by_cases hlen : (sched.periods.takeWhile
              fun p => decide (p.start ≤ time)).length = 0
          · rw [if_pos hlen] at heq
            cases heq
          · rw [if_neg hlen] at heq
            have hle : (sched.periods.takeWhile
                fun p => decide (p.start ≤ time)).length
                ≤ sched.periods.length :=
              (List.takeWhile_sublist _).length_le
            have : i = 0 + (sched.periods.takeWhile
                fun p => decide (p.start ≤ time)).length - 1 := by
              exact ((Option.some.injEq _ _).mp heq)
            omega
        have hget : sched.periods[i]? = some (sched.periods.get ⟨i, hi⟩) :=
          List.getElem?_eq_getElem hi
        have hL : current_section d date time = some
            { schedule_name := name
              schedule_comment := sched.comment
              current_period := sched.periods.get ⟨i, hi⟩
              next_period := sched.periods[i + 1]?
              current_period_end := (sched.periods[i + 1]?).map Period.start
              meta_name := d.meta.name
              meta_periods := d.meta.periods } := by
          unfold current_section
          simp only [hname, hsched, hscan, hget]
        rw [hL]
        refine iff_of_false (by simp) ?_
        rintro (h | ⟨n, hn, hl⟩ | ⟨n, s2, hn, hl, hb⟩)
        · cases h
        · rw [← (Option.some.injEq _ _).mp hn] at hl
          rw [hsched] at hl
          cases hl
        · rw [← (Option.some.injEq _ _).mp hn] at hl
          rw [hsched] at hl
          have hs2 : sched = s2 := (Option.some.injEq _ _).mp hl
          subst hs2
          have := (scanCurrentIndex_eq_none_iff time sched.periods).mpr hb
          rw [hscan] at this
          cases this

/-! ### C8 -/

/-- C8: on the concrete schedule `"A"` with periods 08:00 Homeroom,
08:30 Period1, 15:00 Dismissal, a query at 08:45 (31500000000000 ns) on a
date resolving to `"A"` yields current period `"Period1"`, next period
`"Dismissal"`, and current period end 15:00 (54000000000000 ns). -/
theorem current_section_example :
    (current_section exAppA 0 31500000000000).map
        (fun cs => (cs.current_period.msg, cs.next_period.map Period.msg,
          cs.current_period_end))
      = some ("Period1", some "Dismissal", some 54000000000000) := by
  decide

/-! ### Helper lemmas about the forward search -/

theorem next_period_from_unfold (d : AppData) (t n date : Nat) :
    next_period_from d t n date =
      match schedule_name_for_date d date with
      | none =>
        match nextDay date with
        | none => none
        | some d2 => next_period_from d t n d2
      | some name =>
        match List.lookup name d.schedules with
        | none => none
        | some sched =>
          match sched.periods.head? with
          | none =>
            match nextDay date with
            | none => none
            | some d2 => next_period_from d t n d2
          | some first =>
            if date = t ∧ first.start ≤ n then
              match nextDay date with
              | none => none
              | some d2 => next_period_from d t n d2
            else
              some (first, instant date first.start - instant t n) := by
  rw [next_period_from]
  cases hn : schedule_name_for_date d date with
  | none =>
    simp only []
    cases hd : nextDay date <;> simp only []
  | some name =>
    simp only []
    cases hl : List.lookup name d.schedules with
    | none => simp only []
    | some sched =>
      simp only []
      cases hh : sched.periods.head? with
      | none =>
        simp only []
        cases hd : nextDay date <;> simp only []
      | some first =>
        simp only []
        by_cases hc : date = t ∧ first.start ≤ n
        · rw [if_pos hc, if_pos hc]
          cases hd : nextDay date <;> simp only []
        · rw [if_neg hc, if_neg hc]

theorem next_period_from_some (d : AppData) (todayDate nowTime : Nat)
    (date : Nat) (per : Period) (delta : Int) (hdate : date ≤ dateMaxIdx)
    (h : next_period_from d todayDate nowTime date = some (per, delta)) :
    ∃ day, date ≤ day ∧ day ≤ dateMaxIdx ∧
      hitDay d todayDate nowTime day ∧
      (∀ e, date ≤ e → e < day → skipDay d todayDate nowTime e) ∧
      dayFirstPeriod d day = some per ∧
      delta = instant day per.start - instant todayDate nowTime := by
  rw [next_period_from_unfold] at h
  cases hn : schedule_name_for_date d date with
  | none =>
    rw [hn] at h
    simp only [] at h
    cases hd : nextDay date with
    | none => rw [hd] at h; simp at h
    | some d2 =>
      rw [hd] at h
      simp only [] at h
      have hrange : date < dateMaxIdx ∧ d2 = date + 1 := by
        unfold nextDay at hd
        split at hd
        · exact ⟨by assumption, by cases hd; rfl⟩
        · cases hd
      obtain ⟨hlt, hd2⟩ := hrange
      subst hd2
      obtain ⟨day, h1, h2, h3, h4, h5, h6⟩ :=
        next_period_from_some d todayDate nowTime (date + 1) per delta
          (by omega) h
      refine ⟨day, by omega, h2, h3, ?_, h5, h6⟩
      intro e he1 he2
      rcases Nat.eq_or_lt_of_le he1 with he | he
      · unfold skipDay
        rw [← he, hn]
        trivial
      · exact h4 e (by omega) he2
  | some name =>
    rw [hn] at h
    simp only [] at h
    cases hl : List.lookup name d.schedules with
    | none => rw [hl] at h; simp at h
    | some sched =>
      rw [hl] at h
      simp only [] at h
      cases hh : sched.periods.head? with
      | none =>
        rw [hh] at h
        simp only [] at h
        cases hd : nextDay date with
        | none => rw [hd] at h; simp at h
        | some d2 =>
          rw [hd] at h
          simp only [] at h
          have hrange : date < dateMaxIdx ∧ d2 = date + 1 := by
            unfold nextDay at hd
            split at hd
            · exact ⟨by assumption, by cases hd; rfl⟩
            · cases hd
          obtain ⟨hlt, hd2⟩ := hrange
          subst hd2
          obtain ⟨day, h1, h2, h3, h4, h5, h6⟩ :=
            next_period_from_some d todayDate nowTime (date + 1) per delta
              (by omega) h
          refine ⟨day, by omega, h2, h3, ?_, h5, h6⟩
          intro e he1 he2
          rcases Nat.eq_or_lt_of_le he1 with he | he
          · unfold skipDay
            rw [← he, hn]
            simp only []
            rw [hl]
            simp only []
            rw [hh]
            trivial
          · exact h4 e (by omega) he2
      | some first =>
        rw [hh] at h
        simp only [] at h
        by_cases hc : date = todayDate ∧ first.start ≤ nowTime
        · rw [if_pos hc] at h
          cases hd : nextDay date with
          | none => rw [hd] at h; simp at h
          | some d2 =>
            rw [hd] at h
            simp only [] at h
            have hrange : date < dateMaxIdx ∧ d2 = date + 1 := by
              unfold nextDay at hd
              split at hd
              · exact ⟨by assumption, by cases hd; rfl⟩
              · cases hd
            obtain ⟨hlt, hd2⟩ := hrange
            subst hd2
            obtain ⟨day, h1, h2, h3, h4, h5, h6⟩ :=
              next_period_from_some d todayDate nowTime (date + 1) per delta
                (by omega) h
            refine ⟨day, by omega, h2, h3, ?_, h5, h6⟩
            intro e he1 he2
            rcases Nat.eq_or_lt_of_le he1 with he | he
            · unfold skipDay
              rw [← he, hn]
              simp only []
              rw [hl]
              simp only []
              rw [hh]
              exact hc
            · exact h4 e (by omega) he2
        · rw [if_neg hc] at h
          have hinj := (Option.some.injEq _ _).mp h
          have hfp : first = per := congrArg Prod.fst hinj
          have hdlt : instant date first.start - instant todayDate nowTime
              = delta := congrArg Prod.snd hinj
          subst hfp
          refine ⟨date, Nat.le_refl date, hdate, ?_, ?_, ?_, hdlt.symm⟩
          · unfold hitDay
            rw [hn]
            simp only []
            rw [hl]
            simp only []
            rw [hh]
            exact hc
          · intro e he1 he2; omega
          · unfold dayFirstPeriod
            rw [hn]
            simp only []
            rw [hl]
            simp only []
            rw [hh]
termination_by dateMaxIdx + 1 - date

theorem next_period_from_none_of_skip (d : AppData) (todayDate nowTime : Nat)
    (date : Nat) (h : ∀ e, date ≤ e → skipDay d todayDate nowTime e) :
    next_period_from d todayDate nowTime date = none := by
  have hself := h date (Nat.le_refl date)
  unfold skipDay at hself
  rw [next_period_from_unfold]
  cases hn : schedule_name_for_date d date with
  | none =>
    simp only []
    cases hd : nextDay date with
    | none => simp only []
    | some d2 =>
      simp only []
      have hrange : date < dateMaxIdx ∧ d2 = date + 1 := by
        unfold nextDay at hd
        split at hd
        · exact ⟨by assumption, by cases hd; rfl⟩
        · cases hd
      obtain ⟨hlt, hd2⟩ := hrange
      subst hd2
      exact next_period_from_none_of_skip d todayDate nowTime (date + 1)
        fun e he => h e (by omega)
  | some name =>
    rw [hn] at hself
    simp only [] at hself
    simp only []
    cases hl : List.lookup name d.schedules with
    | none => simp only []
    | some sched =>
      rw [hl] at hself
      simp only [] at hself
      simp only []
      cases hh : sched.periods.head? with
      | none =>
        simp only []
        cases hd : nextDay date with
        | none => simp only []
        | some d2 =>
          simp only []
          have hrange : date < dateMaxIdx ∧ d2 = date + 1 := by
            unfold nextDay at hd
            split at hd
            · exact ⟨by assumption, by cases hd; rfl⟩
            · cases hd
          obtain ⟨hlt, hd2⟩ := hrange
          subst hd2
          exact next_period_from_none_of_skip d todayDate nowTime (date + 1)
            fun e he => h e (by omega)
      | some first =>
        rw [hh] at hself
        simp only [] at hself
        simp only []
        rw [if_pos hself]
        cases hd : nextDay date with
        | none => simp only []
        | some d2 =>
          simp only []
          have hrange : date < dateMaxIdx ∧ d2 = date + 1 := by
            unfold nextDay at hd
            split at hd
            · exact ⟨by assumption, by cases hd; rfl⟩
            · cases hd
          obtain ⟨hlt, hd2⟩ := hrange
          subst hd2
          exact next_period_from_none_of_skip d todayDate nowTime (date + 1)
            fun e he => h e (by omega)
termination_by dateMaxIdx + 1 - date

/-! ### C3 -/

/-- C3: when the starting date is the original today and the first period
of the schedule of today has already started (start at or before the
current time), the forward search does not return any period of today: it
advances to
the next day, and whatever it returns is the first period of the earliest
later day that is eligible (every strictly earlier later day is skipped),
with a time delta computed by full date plus time-of-day arithmetic from
now to the first-period start of that day, hence strictly positive. -/
theorem next_period_search_skips_today (d : AppData)
    (todayDate nowTime : Nat) (name : String) (sched : Schedule)
    (first : Period)
    (htoday : todayDate ≤ dateMaxIdx)
    (hnow : nowTime < nsPerDay)
    (hname : schedule_name_for_date d todayDate = some name)
    (hsched : List.lookup name d.schedules = some sched)
    (hfirst : sched.periods.head? = some first)
    (hstarted : first.start ≤ nowTime) :
    next_period_from d todayDate nowTime todayDate
      = (match nextDay todayDate with
         | none => none
         | some d2 => next_period_from d todayDate nowTime d2) ∧
    ∀ per delta,
      next_period_from d todayDate nowTime todayDate = some (per, delta) →
      ∃ day, todayDate < day ∧ day ≤ dateMaxIdx ∧
        hitDay d todayDate nowTime day ∧
        (∀ e, todayDate < e → e < day → skipDay d todayDate nowTime e) ∧
        dayFirstPeriod d day = some per ∧
        delta = instant day per.start - instant todayDate nowTime ∧
        0 < delta := by
  constructor
  · rw [next_period_from_unfold]
    rw [hname]
    simp only []
    rw [hsched]
    simp only []
    rw [hfirst]
    simp only []
    simp [hstarted]
  · intro per delta hsome
    obtain ⟨day, h1, h2, h3, h4, h5, h6⟩ :=
      next_period_from_some d todayDate nowTime todayDate per delta htoday hsome
    have hne : day ≠ todayDate := by
      intro heq
      subst heq
      unfold hitDay at h3
      rw [hname] at h3
      simp only [] at h3
      rw [hsched] at h3
      simp only [] at h3
      rw [hfirst] at h3
      exact h3 ⟨by simp, hstarted⟩
    have hlt : todayDate < day := by omega
    refine ⟨day, hlt, h2, h3, ?_, h5, h6, ?_⟩
    · intro e he1 he2
      exact h4 e (by omega) he2
    · rw [h6]
      unfold instant nsPerDay
      unfold nsPerDay at hnow
      omega

/-- C3, instantiated: on `exAppA` with today = day 0 at 08:30 (the 08:00
first period has started), the search steps to the next day and any result
comes from a strictly later day with a positive delta. -/
theorem next_period_search_skips_today_witness :
    next_period_from exAppA 0 30600000000000 0
      = (match nextDay 0 with
         | none => none
         | some d2 => next_period_from exAppA 0 30600000000000 d2) ∧
    ∀ per delta,
      next_period_from exAppA 0 30600000000000 0 = some (per, delta) →
      ∃ day, 0 < day ∧ day ≤ dateMaxIdx ∧
        hitDay exAppA 0 30600000000000 day ∧
        (∀ e, 0 < e → e < day → skipDay exAppA 0 30600000000000 e) ∧
        dayFirstPeriod exAppA day = some per ∧
        delta = instant day per.start - instant 0 30600000000000 ∧
        0 < delta :=
  next_period_search_skips_today exAppA 0 30600000000000 "A" exSchedA
    ⟨"Homeroom", 28800000000000⟩ (by decide) (by decide) rfl rfl rfl
    (by decide)

/-! ### C4 -/

/-- The empty calendar resolves no date at all. -/
theorem emptyApp_no_name (e : Nat) :
    schedule_name_for_date emptyApp e = none := by
  unfold schedule_name_for_date
  cases hw : weekday e <;>
    simp [findSpecial, emptyApp, emptyWeek, weekField, hw]

/-- Every day is a skip day for the empty calendar. -/
theorem emptyApp_skip (t n e : Nat) : skipDay emptyApp t n e := by
  unfold skipDay
  rw [emptyApp_no_name e]
  trivial

/-- C4 counterexample: on a calendar where no date at all resolves to a
schedule, the forward search starting at day 0 terminates and returns the
absent result — it does not loop indefinitely, because `Date::next_day`
fails at the maximum representable date and the `?` operator then ends the
search. -/
theorem next_period_from_empty_calendar_none :
    next_period_from emptyApp 0 0 0 = none :=
  next_period_from_none_of_skip emptyApp 0 0 0 fun e _ => emptyApp_skip 0 0 e

/-- C4 (amended): the forward search has no explicit upper bound on the
number of days examined, but it is implicitly bounded by the maximum
representable date: whenever every day from the start of the search onward
is a skip day (no schedule name, empty period list, or the already-started
original today), the search walks day by day until `next_day` fails at the
maximum date and returns absent (rather than looping forever). -/
theorem next_period_search_bounded_absent (d : AppData)
    (todayDate nowTime start : Nat)
    (h : ∀ e, start ≤ e → skipDay d todayDate nowTime e) :
    next_period_from d todayDate nowTime start = none :=
  next_period_from_none_of_skip d todayDate nowTime start h

/-- C4 (amended), instantiated at the empty calendar with a nonzero start
day. -/
theorem next_period_search_bounded_absent_witness :
    next_period_from emptyApp 0 0 3 = none :=
  next_period_search_bounded_absent emptyApp 0 0 3
    fun e _ => emptyApp_skip 0 0 e

/-! ### C10 -/

theorem next_period_from_dangling (d : AppData)
    (todayDate nowTime start day : Nat) (name : String)
    (hsd : start ≤ day)
    (hnone : ∀ e, start ≤ e → e < day → schedule_name_for_date d e = none)
    (hname : schedule_name_for_date d day = some name)
    (hlook : List.lookup name d.schedules = none) :
    next_period_from d todayDate nowTime start = none := by
  rcases Nat.eq_or_lt_of_le hsd with heq | hlt
  · subst heq
    rw [next_period_from_unfold]
    rw [hname]
    simp only []
    rw [hlook]
  · rw [next_period_from_unfold]
    rw [hnone start (Nat.le_refl start) hlt]
    simp only []
    cases hd : nextDay start with
    | none => simp only []
    | some d2 =>
      simp only []
      have hrange : start < dateMaxIdx ∧ d2 = start + 1 := by
        unfold nextDay at hd
        split at hd
        · exact ⟨by assumption, by cases hd; rfl⟩
        · cases hd
      obtain ⟨hlt2, hd2⟩ := hrange
      subst hd2
      exact next_period_from_dangling d todayDate nowTime (start + 1) day name
        (by omega) (fun e he1 he2 => hnone e (by omega) he2) hname hlook
termination_by day - start

/-- C10: if the first date at or after the search start that resolves to a
schedule name resolves to a name absent from the store (dangling
reference), the search returns absent immediately, whatever lies on later
days — in contrast to the no-schedule-name and empty-period-list cases,
which advance to the next day (`next_period_search_skips_today` and the
skip lemmas). -/
theorem next_period_search_dangling_aborts (d : AppData)
    (todayDate nowTime start day : Nat) (name : String)
    (hsd : start ≤ day)
    (hnone : ∀ e, start ≤ e → e < day → schedule_name_for_date d e = none)
    (hname : schedule_name_for_date d day = some name)
    (hlook : List.lookup name d.schedules = none) :
    next_period_from d todayDate nowTime start = none :=
  next_period_from_dangling d todayDate nowTime start day name hsd hnone
    hname hlook

/-- C10, instantiated: every weekday of `danglingApp` resolves to
`"ghost"`, which the empty store does not contain; the search from day 0
returns absent at once. -/
theorem next_period_search_dangling_aborts_witness :
    next_period_from danglingApp 5 0 0 = none :=
  next_period_search_dangling_aborts danglingApp 5 0 0 0 "ghost"
    (Nat.le_refl 0) (fun e h1 h2 => absurd h2 (by omega)) rfl rfl

/-! ### C5 -/

/-- C5: `verify_schedules` passes iff every schedule name defined in the
store is among the names referenced by the calendar (one of the seven
default-week slots or a special-day entry); the inverse direction is not
checked — concretely, a calendar slot naming `"ghost"`, which the store
does not define, still passes validation. -/
theorem verify_schedules_spec :
    (∀ (store : List (String × Schedule)) (cal : Calendar),
       verify_schedules store cal = true ↔
         ∀ n ∈ store.map Prod.fst, n ∈ referencedNames cal) ∧
    (∀ (cal : Calendar) (n : String),
       n ∈ referencedNames cal ↔
         (cal.default.sun = some n ∨ cal.default.mon = some n ∨
          cal.default.tue = some n ∨ cal.default.wed = some n ∨
          cal.default.thu = some n ∨ cal.default.fri = some n ∨
          cal.default.sat = some n ∨ ∃ sd ∈ cal.special, sd.schedule = n)) ∧
    (verify_schedules [("A", exSchedA)]
        { default := { emptyWeek with mon := some "A", tue := some "ghost" },
          special := [] } = true ∧
      "ghost" ∉ ([("A", exSchedA)].map Prod.fst)) := by
  refine ⟨?_, ?_, by decide, by decide⟩
  · intro store cal
    unfold verify_schedules
    rw [List.all_eq_true]
    constructor
    · intro h n hn
      have := h n hn
      simpa [List.elem_iff] using this
    · intro h n hn
      simpa [List.elem_iff] using h n hn
  · intro cal n
    unfold referencedNames
    simp only [List.mem_append, List.mem_filterMap, List.mem_map, id_eq,
      List.mem_cons, List.not_mem_nil, or_false]
    constructor
    · rintro (⟨o, ho, hid⟩ | ⟨sd, hsd, rfl⟩)
      · subst hid
        rcases ho with h | h | h | h | h | h | h
        · exact Or.inl h.symm
        · exact Or.inr (Or.inl h.symm)
        · exact Or.inr (Or.inr (Or.inl h.symm))
        · exact Or.inr (Or.inr (Or.inr (Or.inl h.symm)))
        · exact Or.inr (Or.inr (Or.inr (Or.inr (Or.inl h.symm))))
        · exact Or.inr (Or.inr (Or.inr (Or.inr (Or.inr (Or.inl h.symm)))))
        · exact Or.inr (Or.inr (Or.inr (Or.inr (Or.inr (Or.inr
            (Or.inl h.symm))))))
      · exact Or.inr (Or.inr (Or.inr (Or.inr (Or.inr (Or.inr (Or.inr
          ⟨sd, hsd, rfl⟩))))))
    · rintro (h | h | h | h | h | h | h | ⟨sd, hsd, hs⟩)
      · exact Or.inl ⟨some n, Or.inl h.symm, rfl⟩
      · exact Or.inl ⟨some n, Or.inr (Or.inl h.symm), rfl⟩
      · exact Or.inl ⟨some n, Or.inr (Or.inr (Or.inl h.symm)), rfl⟩
      · exact Or.inl ⟨some n, Or.inr (Or.inr (Or.inr (Or.inl h.symm))), rfl⟩
      · exact Or.inl ⟨some n,
          Or.inr (Or.inr (Or.inr (Or.inr (Or.inl h.symm)))), rfl⟩
      · exact Or.inl ⟨some n,
          Or.inr (Or.inr (Or.inr (Or.inr (Or.inr (Or.inl h.symm))))), rfl⟩
      · exact Or.inl ⟨some n,
          Or.inr (Or.inr (Or.inr (Or.inr (Or.inr (Or.inr h.symm))))), rfl⟩
      · exact Or.inr ⟨sd, hsd, hs⟩

/-! ### C9 -/

/-- C9: a special day whose range is reversed (`untilDate` strictly before
`onDate`) matches no date at all, and removing it from the list of
special days leaves `schedule_name_for_date` unchanged on every date —
resolution falls through to later entries or the default week as if the
entry were absent. -/
theorem reversed_range_never_matches (s : SpecialDay) (u : Nat)
    (hu : s.untilDate = some u) (hrev : u < s.onDate) :
    (∀ date, is_special_day_match date s = false) ∧
    (∀ (d : AppData) (l1 l2 : List SpecialDay) (date : Nat),
       d.calendar.special = l1 ++ s :: l2 →
       schedule_name_for_date d date =
         schedule_name_for_date
           { d with calendar := { d.calendar with special := l1 ++ l2 } }
           date) := by
  have hfalse : ∀ date, is_special_day_match date s = false := by
    intro date
    unfold is_special_day_match
    rw [hu]
    by_cases h1 : s.onDate ≤ date
    · have h2 : ¬(date ≤ u) := by omega
      simp [h1, h2]
    · simp [h1]
  refine ⟨hfalse, ?_⟩
  intro d l1 l2 date hspec
  have hskip : findSpecial date (l1 ++ s :: l2) = findSpecial date (l1 ++ l2) := by
    clear hspec
    induction l1 with
    | nil => simp [findSpecial, hfalse date]
    | cons a t ih =>
      by_cases ha : is_special_day_match date a <;>
        simp [findSpecial, ha, ih]
  unfold schedule_name_for_date
  simp only [hspec]
  rw [hskip]

/-- C9, instantiated: `revSpecial` (range 20 down to 10) matches no date,
and dropping it from `revApp` leaves resolution of day 12 unchanged. -/
theorem reversed_range_never_matches_witness :
    is_special_day_match 12 revSpecial = false ∧
    schedule_name_for_date revApp 12 =
      schedule_name_for_date
        { revApp with calendar :=
            { revApp.calendar with
                special := [] ++ [⟨15, none, "single", none⟩] } } 12 :=
  ⟨(reversed_range_never_matches revSpecial 10 rfl (by decide)).1 12,
   (reversed_range_never_matches revSpecial 10 rfl (by decide)).2 revApp []
     [⟨15, none, "single", none⟩] 12 rfl⟩

/-! ### Helper lemmas about the schedules parser -/

theorem lookup_append_single (x m : String) (sc : Schedule)
    (acc : List (String × Schedule)) :
    List.lookup x (acc ++ [(m, sc)]) = none ↔
      List.lookup x acc = none ∧ x ≠ m := by
  induction acc with
  | nil =>
    by_cases h : x = m
    · simp [List.lookup, h]
    · simp [List.lookup, beq_eq_false_iff_ne.mpr h, h]
  | cons kv t ih =>
    obtain ⟨k, v⟩ := kv
    by_cases h : x = k
    · subst h
      simp [List.lookup]
    · have hb : (x == k) = false := beq_eq_false_iff_ne.mpr h
      simp [List.lookup, hb, ih]

theorem flushInsert_eq (acc : List (String × Schedule)) (n : List Char)
    (c : Option (List Char)) (ps : List Period) :
    flushInsert acc n c ps =
      if List.lookup (String.mk n) acc = none
      then some (acc ++
        [(String.mk n, { comment := c.map String.mk, periods := ps })])
      else none := by
  unfold flushInsert
  cases h : List.lookup (String.mk n) acc <;> simp [h]

theorem headerNames_cons_header (l : List Char) (sig : List (List Char))
    (h : isHeaderLine l = true) :
    headerNames (l :: sig) = String.mk (headerName l) :: headerNames sig := by
  simp [headerNames, List.filter_cons, h]

theorem headerNames_cons_entry (l : List Char) (sig : List (List Char))
    (h : isHeaderLine l = false) :
    headerNames (l :: sig) = headerNames sig := by
  simp [headerNames, List.filter_cons, h]

theorem readLoop_filter :
    ∀ (lines : List (List Char)) (acc : List (String × Schedule))
      (cur : Option (List Char × Option (List Char) × List Period)),
      readLoop lines acc cur =
        readLoop (lines.filter fun l => !l.isEmpty) acc cur := by
  intro lines
  induction lines with
  | nil => intro acc cur; rfl
  | cons line rest ih =>
    intro acc cur
    by_cases h : line.isEmpty
    · have hf : (line :: rest).filter (fun l => !l.isEmpty)
          = rest.filter fun l => !l.isEmpty := by
        simp [List.filter_cons, h]
      rw [hf]
      have hstep : readLoop (line :: rest) acc cur = readLoop rest acc cur := by
        simp only [readLoop, h, if_true]
      rw [hstep]
      exact ih acc cur
    · have h' : line.isEmpty = false := Bool.eq_false_iff.mpr h
      have hf : (line :: rest).filter (fun l => !l.isEmpty)
          = line :: rest.filter fun l => !l.isEmpty := by
        simp [List.filter_cons, h']
      rw [hf]
      simp only [readLoop, h', Bool.false_eq_true, if_false]
      by_cases hhl : isHeaderLine line = true
      · simp only [hhl, if_true]
        cases cur with
        | none =>
          simp only []
          cases hn : (headerParts (line.drop 1)).1.isEmpty with
          | true => simp only [hn, if_true]
          | false =>
            simp only [hn, Bool.false_eq_true, if_false]
            exact ih _ _
        | some st =>
          obtain ⟨n, c, ps⟩ := st
          simp only []
          cases hfl : flushInsert acc n c ps with
          | none => simp only []
          | some acc2 =>
            simp only []
            cases hn : (headerParts (line.drop 1)).1.isEmpty with
            | true => simp only [hn, if_true]
            | false =>
              simp only [hn, Bool.false_eq_true, if_false]
              exact ih _ _
      · have hhl' : isHeaderLine line = false := Bool.eq_false_iff.mpr hhl
        simp only [hhl', Bool.false_eq_true, if_false]
        cases cur with
        | none => simp only []
        | some st =>
          obtain ⟨n, c, ps⟩ := st
          simp only []
          cases hpe : parseEntry line with
          | none => simp only []
          | some p =>
            simp only []
            exact ih _ _

theorem contOK_cons_header_none (line : List Char) (rest : List (List Char))
    (acc : List (String × Schedule)) (cm : Option (List Char))
    (ps : List Period) (hhl : isHeaderLine line = true) :
    contOK (line :: rest) none acc ↔
      ((headerName line).isEmpty = false ∧
        contOK rest (some (headerName line, cm, ps)) acc) := by
  unfold contOK
  rw [headerNames_cons_header line rest hhl]
  simp only [curNames, List.nil_append, List.singleton_append]
  constructor
  · rintro ⟨a1, a2, a3, a4, a5⟩
    refine ⟨a2 line (List.mem_cons_self _ _) hhl, ?_, ?_, ?_, a4, a5⟩
    · intro h; cases h
    · exact fun l hl h => a2 l (List.mem_cons_of_mem _ hl) h
    · exact fun l hl h => a3 l (List.mem_cons_of_mem _ hl) h
  · rintro ⟨hne, _, b2, b3, b4, b5⟩
    refine ⟨fun _ => ?_, ?_, ?_, b4, b5⟩
    · simp [List.takeWhile_cons, hhl]
    · intro l hl h
      rcases List.mem_cons.mp hl with rfl | hl2
      · exact hne
      · exact b2 l hl2 h
    · intro l hl h
      rcases List.mem_cons.mp hl with rfl | hl2
      · rw [hhl] at h; cases h
      · exact b3 l hl2 h

theorem contOK_cons_header_some (line : List Char) (rest : List (List Char))
    (acc : List (String × Schedule)) (n : List Char) (c : Option (List Char))
    (ps : List Period) (cm : Option (List Char)) (ps2 : List Period)
    (sc : Schedule) (hhl : isHeaderLine line = true) :
    contOK (line :: rest) (some (n, c, ps)) acc ↔
      ((headerName line).isEmpty = false ∧
        List.lookup (String.mk n) acc = none ∧
        contOK rest (some (headerName line, cm, ps2))
          (acc ++ [(String.mk n, sc)])) := by
  unfold contOK
  rw [headerNames_cons_header line rest hhl]
  simp only [curNames, List.singleton_append]
  constructor
  · rintro ⟨a1, a2, a3, a4, a5⟩
    have ha4 : (String.mk n
        :: String.mk (headerName line) :: headerNames rest).Nodup := a4
    have hnotin : String.mk n
        ∉ String.mk (headerName line) :: headerNames rest :=
      (List.nodup_cons.mp ha4).1
    refine ⟨a2 line (List.mem_cons_self _ _) hhl,
      a5 (String.mk n) (List.mem_cons_self _ _),
      ?_, ?_, ?_, (List.nodup_cons.mp ha4).2, ?_⟩
    · intro h; cases h
    · exact fun l hl h => a2 l (List.mem_cons_of_mem _ hl) h
    · exact fun l hl h => a3 l (List.mem_cons_of_mem _ hl) h
    · intro x hx
      rw [lookup_append_single]
      refine ⟨a5 x (List.mem_cons_of_mem _ hx), ?_⟩
      intro hxe
      exact hnotin (hxe ▸ hx)
  · rintro ⟨hne, hlook, _, b2, b3, b4, b5⟩
    have hforall : ∀ x ∈ String.mk (headerName line) :: headerNames rest,
        List.lookup x acc = none ∧ x ≠ String.mk n := by
      intro x hx
      exact (lookup_append_single _ _ _ _).mp (b5 x hx)
    refine ⟨?_, ?_, ?_, ?_, ?_⟩
    · intro h; cases h
    · intro l hl h
      rcases List.mem_cons.mp hl with rfl | hl2
      · exact hne
      · exact b2 l hl2 h
    · intro l hl h
      rcases List.mem_cons.mp hl with rfl | hl2
      · rw [hhl] at h; cases h
      · exact b3 l hl2 h
    · refine List.nodup_cons.mpr ⟨?_, b4⟩
      intro hmem
      exact (hforall (String.mk n) hmem).2 rfl
    · intro x hx
      rcases List.mem_cons.mp hx with rfl | hx2
      · exact hlook
      · exact (hforall x hx2).1

theorem contOK_cons_entry_some (line : List Char) (rest : List (List Char))
    (acc : List (String × Schedule)) (n : List Char) (c : Option (List Char))
    (ps : List Period) (c2 : Option (List Char)) (ps2 : List Period)
    (hhl : isHeaderLine line = false) :
    contOK (line :: rest) (some (n, c, ps)) acc ↔
      ((parseEntry line).isSome = true ∧
        contOK rest (some (n, c2, ps2)) acc) := by
  unfold contOK
  rw [headerNames_cons_entry line rest hhl]
  simp only [curNames]
  constructor
  · rintro ⟨a1, a2, a3, a4, a5⟩
    refine ⟨a3 line (List.mem_cons_self _ _) hhl, ?_,
      ?_, ?_, a4, a5⟩
    · intro h; cases h
    · exact fun l hl h => a2 l (List.mem_cons_of_mem _ hl) h
    · exact fun l hl h => a3 l (List.mem_cons_of_mem _ hl) h
  · rintro ⟨hpe, _, b2, b3, b4, b5⟩
    refine ⟨?_, ?_, ?_, b4, b5⟩
    · intro h; cases h
    · intro l hl h
      rcases List.mem_cons.mp hl with rfl | hl2
      · rw [hhl] at h; cases h
      · exact b2 l hl2 h
    · intro l hl h
      rcases List.mem_cons.mp hl with rfl | hl2
      · exact hpe
      · exact b3 l hl2 h

theorem contOK_cons_entry_none (line : List Char) (rest : List (List Char))
    (acc : List (String × Schedule)) (hhl : isHeaderLine line = false) :
    ¬ contOK (line :: rest) none acc := by
  rintro ⟨a1, _, _, _, _⟩
  have := a1 rfl
  rw [List.takeWhile_cons] at this
  rw [hhl] at this
  simp at this

theorem contOK_cons_header_empty (line : List Char) (rest : List (List Char))
    (acc : List (String × Schedule))
    (cur : Option (List Char × Option (List Char) × List Period))
    (hhl : isHeaderLine line = true)
    (hn : (headerName line).isEmpty = true) :
    ¬ contOK (line :: rest) cur acc := by
  rintro ⟨_, a2, _, _, _⟩
  have := a2 line (List.mem_cons_self _ _) hhl
  rw [hn] at this
  cases this

theorem readLoop_spec :
    ∀ (sig : List (List Char)), (∀ l ∈ sig, l.isEmpty = false) →
    ∀ (cur : Option (List Char × Option (List Char) × List Period))
      (acc : List (String × Schedule)),
      readLoop sig acc cur =
        if contOK sig cur acc then some (finalizeLoop acc cur sig) else none := by
  intro sig
  induction sig with
  | nil =>
    intro _ cur acc
    cases cur with
    | none =>
      have hc : contOK [] none acc := by
        refine ⟨fun _ => rfl, by simp, by simp, by simp [curNames, headerNames], ?_⟩
        intro x hx
        simp [curNames, headerNames] at hx
      rw [if_pos hc]
      simp [readLoop, finalizeLoop, specBlocks]
    | some st =>
      obtain ⟨n, c, ps⟩ := st
      have hL : readLoop [] acc (some (n, c, ps)) = flushInsert acc n c ps := rfl
      rw [hL, flushInsert_eq]
      by_cases h : List.lookup (String.mk n) acc = none
      · have hc : contOK [] (some (n, c, ps)) acc := by
          refine ⟨?_, by simp, by simp, by simp [curNames, headerNames], ?_⟩
          · intro hh; cases hh
          · intro x hx
            simp only [curNames, headerNames, List.filter_nil, List.map_nil,
              List.append_nil, List.mem_singleton] at hx
            rw [hx]
            exact h
        rw [if_pos h, if_pos hc]
        simp [finalizeLoop, specBlocks]
      · have hc : ¬ contOK [] (some (n, c, ps)) acc := by
          intro hco
          exact h (hco.2.2.2.2 (String.mk n)
            (by simp [curNames, headerNames]))
        rw [if_neg h, if_neg hc]
  | cons line rest ih =>
    intro hne cur acc
    have hlz : line.isEmpty = false := hne line (List.mem_cons_self _ _)
    have hrest : ∀ l ∈ rest, l.isEmpty = false :=
      fun l hl => hne l (List.mem_cons_of_mem _ hl)
    cases hhl : isHeaderLine line with
    | true =>
      cases cur with
      | none =>
        have hL : readLoop (line :: rest) acc none =
            (if (headerParts (line.drop 1)).1.isEmpty then none
             else readLoop rest acc (some ((headerParts (line.drop 1)).1,
               (headerParts (line.drop 1)).2.filter (fun v => !v.isEmpty),
               []))) := by
          simp only [readLoop, hlz, Bool.false_eq_true, if_false, hhl, if_true]
        rw [hL]
        cases hn : (headerParts (line.drop 1)).1.isEmpty with
        | true =>
          rw [if_pos rfl]
          rw [if_neg (contOK_cons_header_empty line rest acc none hhl hn)]
        | false =>
          rw [if_neg Bool.false_ne_true]
          rw [ih hrest _ _]
          have hiff := contOK_cons_header_none line rest acc
            ((headerParts (line.drop 1)).2.filter (fun v => !v.isEmpty)) []
            hhl
          rw [show headerName line = (headerParts (line.drop 1)).1 from rfl]
            at hiff
          by_cases hco : contOK rest (some ((headerParts (line.drop 1)).1,
              (headerParts (line.drop 1)).2.filter (fun v => !v.isEmpty),
              [])) acc
          · rw [if_pos hco, if_pos (hiff.mpr ⟨hn, hco⟩)]
            have hfin : finalizeLoop acc (some ((headerParts (line.drop 1)).1,
                (headerParts (line.drop 1)).2.filter (fun v => !v.isEmpty),
                [])) rest = finalizeLoop acc none (line :: rest) := by
              unfold finalizeLoop
              rw [show specBlocks (line :: rest) =
                  (String.mk (headerParts (line.drop 1)).1,
                    { comment := ((headerParts (line.drop 1)).2.filter
                        (fun v => !v.isEmpty)).map String.mk,
                      periods := (rest.takeWhile
                        fun l => !isHeaderLine l).filterMap parseEntry }) ::
                    specBlocks (rest.dropWhile fun l => !isHeaderLine l) by
                rw [specBlocks]
                rw [if_pos hhl]]
              simp [headerName]
            rw [hfin]
          · rw [if_neg hco, if_neg (fun hcon => hco (hiff.mp hcon).2)]
      | some st =>
        obtain ⟨n, c, ps⟩ := st
        have hL : readLoop (line :: rest) acc (some (n, c, ps)) =
            (match flushInsert acc n c ps with
             | none => none
             | some acc2 =>
               if (headerParts (line.drop 1)).1.isEmpty then none
               else readLoop rest acc2 (some ((headerParts (line.drop 1)).1,
                 (headerParts (line.drop 1)).2.filter (fun v => !v.isEmpty),
                 []))) := by
          simp only [readLoop, hlz, Bool.false_eq_true, if_false, hhl, if_true]
        rw [hL, flushInsert_eq]
        by_cases hdup : List.lookup (String.mk n) acc = none
        · rw [if_pos hdup]
          simp only []
          cases hn : (headerParts (line.drop 1)).1.isEmpty with
          | true =>
            rw [if_pos rfl]
            rw [if_neg (contOK_cons_header_empty line rest acc _ hhl hn)]
          | false =>
            rw [if_neg Bool.false_ne_true]
            rw [ih hrest _ _]
            have hiff := contOK_cons_header_some line rest acc n c ps
              ((headerParts (line.drop 1)).2.filter (fun v => !v.isEmpty)) []
              { comment := c.map String.mk, periods := ps } hhl
            rw [show headerName line = (headerParts (line.drop 1)).1 from rfl]
              at hiff
            by_cases hco : contOK rest (some ((headerParts (line.drop 1)).1,
                (headerParts (line.drop 1)).2.filter (fun v => !v.isEmpty),
                []))
                (acc ++ [(String.mk n,
                  { comment := c.map String.mk, periods := ps })])
            · rw [if_pos hco, if_pos (hiff.mpr ⟨hn, hdup, hco⟩)]
              have hfin : finalizeLoop
                  (acc ++ [(String.mk n,
                    { comment := c.map String.mk, periods := ps })])
                  (some ((headerParts (line.drop 1)).1,
                    (headerParts (line.drop 1)).2.filter (fun v => !v.isEmpty),
                    [])) rest
                  = finalizeLoop acc (some (n, c, ps)) (line :: rest) := by
                unfold finalizeLoop
                rw [show specBlocks (line :: rest) =
                    (String.mk (headerParts (line.drop 1)).1,
                      { comment := ((headerParts (line.drop 1)).2.filter
                          (fun v => !v.isEmpty)).map String.mk,
                        periods := (rest.takeWhile
                          fun l => !isHeaderLine l).filterMap parseEntry }) ::
                      specBlocks (rest.dropWhile fun l => !isHeaderLine l) by
                  rw [specBlocks]
                  rw [if_pos hhl]]
                rw [show (line :: rest).takeWhile (fun l => !isHeaderLine l)
                    = [] by
                  rw [List.takeWhile_cons, hhl]
                  simp]
                rw [show (line :: rest).dropWhile (fun l => !isHeaderLine l)
                    = line :: rest by
                  rw [List.dropWhile_cons]
                  rw [hhl]
                  simp]
                rw [show specBlocks (line :: rest) =
                    (String.mk (headerParts (line.drop 1)).1,
                      { comment := ((headerParts (line.drop 1)).2.filter
                          (fun v => !v.isEmpty)).map String.mk,
                        periods := (rest.takeWhile
                          fun l => !isHeaderLine l).filterMap parseEntry }) ::
                      specBlocks (rest.dropWhile fun l => !isHeaderLine l) by
                  rw [specBlocks]
                  rw [if_pos hhl]]
                simp [headerName]
              rw [hfin]
            · rw [if_neg hco, if_neg (fun hcon => hco (hiff.mp hcon).2.2)]
        · rw [if_neg hdup]
          simp only []
          have hc : ¬ contOK (line :: rest) (some (n, c, ps)) acc := by
            intro hco
            exact hdup (hco.2.2.2.2 (String.mk n) (by simp [curNames]))
          rw [if_neg hc]
    | false =>
      cases cur with
      | none =>
        have hL : readLoop (line :: rest) acc none = none := by
          simp only [readLoop, hlz, Bool.false_eq_true, if_false, hhl]
        rw [hL, if_neg (contOK_cons_entry_none line rest acc hhl)]
      | some st =>
        obtain ⟨n, c, ps⟩ := st
        have hL : readLoop (line :: rest) acc (some (n, c, ps)) =
            (match parseEntry line with
             | none => none
             | some p => readLoop rest acc (some (n, c, ps ++ [p]))) := by
          simp only [readLoop, hlz, Bool.false_eq_true, if_false, hhl]
        rw [hL]
        cases hpe : parseEntry line with
        | none =>
          simp only []
          have hc : ¬ contOK (line :: rest) (some (n, c, ps)) acc := by
            intro hco
            have := hco.2.2.1 line (List.mem_cons_self _ _) hhl
            rw [hpe] at this
            cases this
          rw [if_neg hc]
        | some p =>
          simp only []
          rw [ih hrest _ _]
          have hiff := contOK_cons_entry_some line rest acc n c ps c
            (ps ++ [p]) hhl
          by_cases hco : contOK rest (some (n, c, ps ++ [p])) acc
          · rw [if_pos hco,
              if_pos (hiff.mpr ⟨by rw [hpe]; rfl, hco⟩)]
            have hfin : finalizeLoop acc (some (n, c, ps ++ [p])) rest
                = finalizeLoop acc (some (n, c, ps)) (line :: rest) := by
              unfold finalizeLoop
              rw [show (line :: rest).takeWhile (fun l => !isHeaderLine l)
                  = line :: rest.takeWhile (fun l => !isHeaderLine l) by
                rw [List.takeWhile_cons, hhl]
                simp]
              rw [show (line :: rest).dropWhile (fun l => !isHeaderLine l)
                  = rest.dropWhile (fun l => !isHeaderLine l) by
                rw [List.dropWhile_cons]
                rw [hhl]
                simp]
              rw [List.filterMap_cons, hpe]
              simp
            rw [hfin]
          · rw [if_neg hco, if_neg (fun hcon => hco (hiff.mp hcon).2)]

theorem contOK_none_nil_iff (sig : List (List Char)) :
    contOK sig none [] ↔ schedulesWellFormed sig = true := by
  unfold contOK schedulesWellFormed
  simp only [curNames, List.nil_append]
  constructor
  · rintro ⟨c1, c2, c3, c4, c5⟩
    rw [Bool.and_eq_true, Bool.and_eq_true, Bool.and_eq_true]
    refine ⟨⟨⟨?_, ?_⟩, decide_eq_true c4⟩, ?_⟩
    · rw [c1 (by trivial)]
      rfl
    · rw [List.all_eq_true]
      intro l hl
      cases hh : isHeaderLine l with
      | true => simp [c2 l hl hh]
      | false => simp [hh]
    · rw [List.all_eq_true]
      intro l hl
      cases hh : isHeaderLine l with
      | true => simp [hh]
      | false => simp [c3 l hl hh]
  · intro h
    rw [Bool.and_eq_true, Bool.and_eq_true, Bool.and_eq_true] at h
    obtain ⟨⟨⟨h1, h2⟩, h3⟩, h4⟩ := h
    refine ⟨fun _ => ?_, ?_, ?_, of_decide_eq_true h3, ?_⟩
    · cases hX : sig.takeWhile (fun l => !isHeaderLine l) with
      | nil => rfl
      | cons a t =>
        rw [hX] at h1
        simp at h1
    · intro l hl hh
      have := List.all_eq_true.mp h2 l hl
      rw [hh] at this
      simpa using this
    · intro l hl hh
      have := List.all_eq_true.mp h4 l hl
      rw [hh] at this
      simpa using this
    · intro n _
      rfl

/-! ### C6 -/

/-- C6: the schedules parser fails exactly when one of the listed spec
conditions holds on the significant (trimmed, non-blank) lines — a period
line before any header, an empty header name, a duplicate schedule name,
or a period line that does not parse (no whitespace split, empty start or
message, unparsable hour or minute, or an invalid time of day) — and on
any other input it succeeds, producing the name-to-schedule map whose
blocks carry their periods in file order (`specBlocks`). -/
theorem read_schedules_spec (rawLines : List (List Char)) :
    read_schedules rawLines = scheduleParseSpec rawLines := by
  unfold read_schedules scheduleParseSpec
  rw [readLoop_filter]
  have hx : (rawLines.map trimChars).filter (fun l => !l.isEmpty)
      = sigOf rawLines := rfl
  rw [hx]
  have hne : ∀ l ∈ sigOf rawLines, l.isEmpty = false := by
    intro l hl
    have := (List.mem_filter.mp hl).2
    simpa using this
  rw [readLoop_spec _ hne none []]
  simp only []
  by_cases h : schedulesWellFormed (sigOf rawLines) = true
  · rw [if_pos ((contOK_none_nil_iff _).mpr h), if_pos h]
    unfold finalizeLoop
    simp [sigOf]
  · rw [if_neg (fun hc => h ((contOK_none_nil_iff _).mp hc)), if_neg h]

end Bell
